import Mathlib

/-
Verification development for the `explicitGA/attention.py` module (SuperGAT).

The Python source is shallowly embedded:
  * tensors of edge indices become `List (ℕ × ℕ)` of (source, destination)
    pairs, matching the `[2, E]` layout (row 0 = source j, row 1 = dest i);
  * `random.sample(range(n*n), k)` is modelled by an oracle
    `stream : ℕ → ℕ → List ℕ` giving the draw of round `t` at size `k`;
    `ValidStream` states exactly the guarantees of `random.sample`
    (length `k`, no duplicates, values below the population size);
  * the open-ended `while` loop of `negative_sampling` is run on explicit
    fuel; exhausting the fuel yields `outOfFuel` ("still looping"), and an
    exception raised by the Python code (assert failure, `random.sample`
    ValueError on a negative count) is `err`;
  * real-valued attention arithmetic is over `ℝ`.
-/

namespace SuperGAT

/-- Result of one call to the negative sampler: a sampled edge list, an
exception propagating out of the Python code, or a redraw loop that is
still rejecting after the allotted number of rounds. -/
inductive SampleResult where
  | ok (edges : List (ℕ × ℕ))
  | err
  | outOfFuel
deriving DecidableEq

/-- Result of `batch_negative_sampling`, kept per subgraph (the source
builds `neg_edges_index_list` and concatenates at the end). -/
inductive PiecesResult where
  | ok (pieces : List (List (ℕ × ℕ)))
  | err
  | outOfFuel
deriving DecidableEq

/-- Guarantees of `random.sample(range(n2), k)`: the draw at any round has
the requested length, no repeats, and values below the population size. -/
def ValidStream (n2 : ℕ) (stream : ℕ → ℕ → List ℕ) : Prop :=
  ∀ t k, k ≤ n2 →
    (stream t k).length = k ∧ (stream t k).Nodup ∧ ∀ x ∈ stream t k, x < n2

/-- Helper for `restOf`: positions (counting from `i`) of the entries of
the list that occur in `idx`. -/
def restOfAux (idx : List ℕ) : List ℕ → ℕ → List ℕ
  | [], _ => []
  | a :: l, i =>
      if a ∈ idx then i :: restOfAux idx l (i + 1) else restOfAux idx l (i + 1)

/-- Embedding of `np.isin(l, idx)` followed by `.nonzero()`: the positions
of the entries of `l` that collide with the positive-edge indices `idx`. -/
def restOf (l idx : List ℕ) : List ℕ := restOfAux idx l 0

/-- Embedding of the tensor write `perm[rest] = tmp`. -/
def writeAt (perm rest tmp : List ℕ) : List ℕ :=
  (List.zip rest tmp).foldl (fun p rv => p.set rv.1 rv.2) perm

/-- Embedding of the `while rest.numel() > 0` loop of `negative_sampling`
(attention.py lines 29-33), run on explicit fuel.  Note the source sets
`rest = mask.nonzero()` where `mask` is computed over `tmp`, so the new
`rest` holds positions *into `tmp`*, not positions into `perm`. -/
def sampleLoop (idx : List ℕ) (stream : ℕ → ℕ → List ℕ) :
    ℕ → List ℕ → List ℕ → ℕ → Option (List ℕ)
  | 0, perm, rest, _ => if rest.isEmpty then some perm else none
  | fuel + 1, perm, rest, t =>
      if rest.isEmpty then some perm
      else
        sampleLoop idx stream fuel (writeAt perm rest (stream t rest.length))
          (restOf (stream t rest.length) idx) (t + 1)

/-- Embedding of `max_num_samples or pos_edge_index.size(1)` (line 18):
Python `or` falls back to the edge count both when the argument is absent
and when it is `0` (zero is falsy). -/
def requestedSamples (E : ℕ) (max_num_samples : Option ℕ) : ℕ :=
  match max_num_samples with
  | none => E
  | some m => if m = 0 then E else m

/-- Embedding of `min(max_num_samples, num_nodes * num_nodes - E)`
(lines 19-20), computed over ℤ because the Python subtraction can go
negative when the edge list is longer than `n²`. -/
def numSamplesOf (E n : ℕ) (max_num_samples : Option ℕ) : ℤ :=
  min ((requestedSamples E max_num_samples : ℕ) : ℤ) ((n : ℤ) * (n : ℤ) - (E : ℤ))

/-- Initial draw plus the rejection loop of `negative_sampling`
(lines 25-33). -/
def negSamplingCore (idx : List ℕ) (k : ℕ) (stream : ℕ → ℕ → List ℕ) (fuel : ℕ) :
    Option (List ℕ) :=
  sampleLoop idx stream fuel (stream 0 k) (restOf (stream 0 k) idx) 1

/-- Embedding of `negative_sampling` (attention.py lines 17-36).
Positive edges are encoded as linear indices `src * n + dst` (line 22);
the final `perm` is decoded as `(p / n, p % n)` (line 35; the float
division followed by `.long()` truncates like ℕ division). A negative
requested count makes `random.sample` raise, hence `err`. -/
def negative_sampling (pos_edge_index : List (ℕ × ℕ)) (num_nodes : ℕ)
    (max_num_samples : Option ℕ) (stream : ℕ → ℕ → List ℕ) (fuel : ℕ) :
    SampleResult :=
  if numSamplesOf pos_edge_index.length num_nodes max_num_samples < 0 then
    SampleResult.err
  else
    match negSamplingCore (pos_edge_index.map fun e => e.1 * num_nodes + e.2)
        (numSamplesOf pos_edge_index.length num_nodes max_num_samples).toNat
        stream fuel with
    | none => SampleResult.outOfFuel
    | some perm =>
        SampleResult.ok (perm.map fun p => (p / num_nodes, p % num_nodes))

/-- Helper for `nodesOf`: positions (counting from `i`) of the entries
equal to `b`. -/
def nonzeroEq (b : ℕ) : List ℕ → ℕ → List ℕ
  | [], _ => []
  | a :: l, i => if a = b then i :: nonzeroEq b l (i + 1) else nonzeroEq b l (i + 1)

/-- Embedding of `torch.nonzero(batch == b)` (line 53): the global node
ids of subgraph `b`, in increasing order. -/
def nodesOf (batch : List ℕ) (b : ℕ) : List ℕ := nonzeroEq b batch 0

/-- Embedding of `torch_geometric.utils.subgraph(nodes, edges,
relabel_nodes=True)` (line 55): keep the edges with both endpoints in
`nodes` and relabel each endpoint to its position in `nodes`.  Edges with
an endpoint outside `nodes` are dropped. -/
def subgraphEdges (nodes : List ℕ) (edges : List (ℕ × ℕ)) : List (ℕ × ℕ) :=
  (edges.filter fun e => decide (e.1 ∈ nodes) && decide (e.2 ∈ nodes)).map
    fun e => (nodes.indexOf e.1, nodes.indexOf e.2)

/-- The per-subgraph inputs `(pos_edge_index_of_one_graph, num_nodes)`
built by `batch_negative_sampling` (lines 52-59).  `none` models the
exceptions of the source, in evaluation order: the assert at line 50 when
neither `num_nodes` nor `batch` is given; `batch.max()` (line 53) raising
on an empty batch; and line 54's `len(torch.nonzero(batch == b).squeeze())`
raising `TypeError` whenever some subgraph `b` has exactly one node,
because `.squeeze()` turns the `[1, 1]`-shaped nonzero result into a
0-dimensional tensor and `len()` of a 0-dim tensor raises. -/
def pieceInputs (pos_edge_index : List (ℕ × ℕ)) (num_nodes : Option ℕ)
    (batch : Option (List ℕ)) : Option (List (List (ℕ × ℕ) × ℕ)) :=
  match batch with
  | some bl =>
      if bl.isEmpty then none
      else if ((List.range (bl.foldl max 0 + 1)).any fun b =>
          (nodesOf bl b).length == 1) then none
      else
        some ((List.range (bl.foldl max 0 + 1)).map fun b =>
          (subgraphEdges (nodesOf bl b) pos_edge_index, (nodesOf bl b).length))
  | none =>
      match num_nodes with
      | some n => some [(pos_edge_index, n)]
      | none => none

/-- Embedding of `neg_edges_index += prev_node_idx` (line 67): both
coordinates are offset by the running node count. -/
def offsetEdges (off : ℕ) (l : List (ℕ × ℕ)) : List (ℕ × ℕ) :=
  l.map fun e => (e.1 + off, e.2 + off)

/-- The `for`-loop of `batch_negative_sampling` (lines 61-69): sample each
subgraph independently, offset by the accumulated `prev_node_idx`, and
collect the per-subgraph lists.  Subgraph `b` consumes the draw stream
`streams b`. -/
def runPieces (max_num_samples : Option ℕ) (streams : ℕ → ℕ → ℕ → List ℕ)
    (fuel : ℕ) : List (List (ℕ × ℕ) × ℕ) → ℕ → ℕ → PiecesResult
  | [], _, _ => PiecesResult.ok []
  | (pe, n) :: rest, b, prev =>
      match negative_sampling pe n max_num_samples (streams b) fuel with
      | SampleResult.ok l =>
          match runPieces max_num_samples streams fuel rest (b + 1) (prev + n) with
          | PiecesResult.ok ps => PiecesResult.ok (offsetEdges prev l :: ps)
          | PiecesResult.err => PiecesResult.err
          | PiecesResult.outOfFuel => PiecesResult.outOfFuel
      | SampleResult.err => PiecesResult.err
      | SampleResult.outOfFuel => PiecesResult.outOfFuel

/-- Embedding of `batch_negative_sampling` (lines 39-71), kept as the list
of per-subgraph results before the final `torch.cat`. -/
def batch_negative_sampling_pieces (pos_edge_index : List (ℕ × ℕ))
    (num_nodes : Option ℕ) (batch : Option (List ℕ))
    (max_num_samples : Option ℕ) (streams : ℕ → ℕ → ℕ → List ℕ) (fuel : ℕ) :
    PiecesResult :=
  match pieceInputs pos_edge_index num_nodes batch with
  | none => PiecesResult.err
  | some inputs => runPieces max_num_samples streams fuel inputs 0 0

/-- Embedding of `batch_negative_sampling` including the final
`torch.cat(neg_edges_index_list, dim=1)` (line 70). -/
def batch_negative_sampling (pos_edge_index : List (ℕ × ℕ))
    (num_nodes : Option ℕ) (batch : Option (List ℕ))
    (max_num_samples : Option ℕ) (streams : ℕ → ℕ → ℕ → List ℕ) (fuel : ℕ) :
    SampleResult :=
  match batch_negative_sampling_pieces pos_edge_index num_nodes batch
      max_num_samples streams fuel with
  | PiecesResult.ok ps => SampleResult.ok ps.flatten
  | PiecesResult.err => SampleResult.err
  | PiecesResult.outOfFuel => SampleResult.outOfFuel

/-- The negative-sampling call made by `ExplicitGAT.forward`
(lines 139-143): `num_nodes = x.size(0)`, the batch vector is passed
through, and `max_num_samples` is *omitted*. -/
def forwardNegativeSampling (num_nodes_x : ℕ) (edge_index : List (ℕ × ℕ))
    (batch : Option (List ℕ)) (streams : ℕ → ℕ → ℕ → List ℕ) (fuel : ℕ) :
    PiecesResult :=
  batch_negative_sampling_pieces edge_index (some num_nodes_x) batch none
    streams fuel

/-- A draw stream that always returns `[0, 1, ..., k-1]`; it satisfies
`ValidStream` for every population size at least `k`. -/
def rangeStream : ℕ → ℕ → List ℕ := fun _ k => List.range k

/-- One `rangeStream` per subgraph. -/
def rangeStreams : ℕ → ℕ → ℕ → List ℕ := fun _ => rangeStream

theorem rangeStream_valid (n2 : ℕ) : ValidStream n2 rangeStream := by
  intro t k hk
  refine ⟨List.length_range k, List.nodup_range k, ?_⟩
  intro x hx
  exact lt_of_lt_of_le (List.mem_range.mp hx) hk

theorem restOfAux_length_le (idx : List ℕ) :
    ∀ (l : List ℕ) (i : ℕ), (restOfAux idx l i).length ≤ l.length := by
  intro l
  induction l with
  | nil => intro i; simp [restOfAux]
  | cons a l ih =>
      intro i
      by_cases h : a ∈ idx
      · simpa [restOfAux, h] using Nat.succ_le_succ (ih (i + 1))
      · simpa [restOfAux, h] using Nat.le_succ_of_le (ih (i + 1))

theorem restOf_length_le (l idx : List ℕ) : (restOf l idx).length ≤ l.length :=
  restOfAux_length_le idx l 0

theorem foldl_set_length (L : List (ℕ × ℕ)) :
    ∀ perm : List ℕ,
      (L.foldl (fun p rv => p.set rv.1 rv.2) perm).length = perm.length := by
  induction L with
  | nil => intro perm; rfl
  | cons rv L ih => intro perm; rw [List.foldl_cons, ih, List.length_set]

theorem writeAt_length (perm rest tmp : List ℕ) :
    (writeAt perm rest tmp).length = perm.length :=
  foldl_set_length _ perm

theorem foldl_set_mem (n2 : ℕ) :
    ∀ (L : List (ℕ × ℕ)) (perm : List ℕ),
      (∀ p ∈ perm, p < n2) → (∀ rv ∈ L, rv.2 < n2) →
      ∀ p ∈ L.foldl (fun p rv => p.set rv.1 rv.2) perm, p < n2 := by
  intro L
  induction L with
  | nil => intro perm hp _ p hpm; exact hp p hpm
  | cons rv L ih =>
      intro perm hp hL p hpm
      rw [List.foldl_cons] at hpm
      refine ih (perm.set rv.1 rv.2) ?_ ?_ p hpm
      · intro q hq
        rcases List.mem_or_eq_of_mem_set hq with h | h
        · exact hp q h
        · subst h; exact hL rv (List.mem_cons_self rv L)
      · intro r hr; exact hL r (List.mem_cons_of_mem _ hr)

theorem writeAt_mem (n2 : ℕ) (perm rest tmp : List ℕ)
    (hp : ∀ p ∈ perm, p < n2) (ht : ∀ v ∈ tmp, v < n2) :
    ∀ p ∈ writeAt perm rest tmp, p < n2 := by
  refine foldl_set_mem n2 (List.zip rest tmp) perm hp ?_
  intro rv hrv
  exact ht rv.2 (List.of_mem_zip hrv).2

theorem sampleLoop_length (idx : List ℕ) (stream : ℕ → ℕ → List ℕ) :
    ∀ (fuel : ℕ) (perm rest : List ℕ) (t : ℕ) (perm' : List ℕ),
      sampleLoop idx stream fuel perm rest t = some perm' →
      perm'.length = perm.length := by
  intro fuel
  induction fuel with
  | zero =>
      intro perm rest t perm' h
      by_cases hr : rest.isEmpty
      · simp [sampleLoop, hr] at h; subst h; rfl
      · simp [sampleLoop, hr] at h
  | succ fuel ih =>
      intro perm rest t perm' h
      by_cases hr : rest.isEmpty
      · simp [sampleLoop, hr] at h; subst h; rfl
      · simp only [sampleLoop, hr, Bool.false_eq_true, if_false] at h
        rw [ih _ _ _ _ h, writeAt_length]

theorem sampleLoop_mem (idx : List ℕ) (stream : ℕ → ℕ → List ℕ) (n2 : ℕ)
    (hs : ValidStream n2 stream) :
    ∀ (fuel : ℕ) (perm rest : List ℕ) (t : ℕ) (perm' : List ℕ),
      sampleLoop idx stream fuel perm rest t = some perm' →
      (∀ p ∈ perm, p < n2) → rest.length ≤ n2 →
      ∀ p ∈ perm', p < n2 := by
  intro fuel
  induction fuel with
  | zero =>
      intro perm rest t perm' h hp _
      by_cases hr : rest.isEmpty
      · simp [sampleLoop, hr] at h; subst h; exact hp
      · simp [sampleLoop, hr] at h
  | succ fuel ih =>
      intro perm rest t perm' h hp hrest
      by_cases hr : rest.isEmpty
      · simp [sampleLoop, hr] at h; subst h; exact hp
      · simp only [sampleLoop, hr, Bool.false_eq_true, if_false] at h
        obtain ⟨hlen, _, hbound⟩ := hs t rest.length hrest
        refine ih _ _ _ _ h ?_ ?_
        · exact writeAt_mem n2 perm rest _ hp hbound
        · calc (restOf (stream t rest.length) idx).length
              ≤ (stream t rest.length).length := restOf_length_le _ _
            _ = rest.length := hlen
            _ ≤ n2 := hrest

theorem numSamples_toNat_le (E n : ℕ) (maxns : Option ℕ) :
    (numSamplesOf E n maxns).toNat ≤ n * n := by
  have h2 : ((n : ℤ) * n) = ((n * n : ℕ) : ℤ) := by push_cast; ring
  have h1 : numSamplesOf E n maxns ≤ ((n * n : ℕ) : ℤ) - (E : ℤ) := by
    rw [← h2]; exact min_le_right _ _
  omega

theorem negative_sampling_ok_nonneg {pos : List (ℕ × ℕ)} {n : ℕ}
    {maxns : Option ℕ} {stream : ℕ → ℕ → List ℕ} {fuel : ℕ} {l : List (ℕ × ℕ)}
    (h : negative_sampling pos n maxns stream fuel = SampleResult.ok l) :
    0 ≤ numSamplesOf pos.length n maxns := by
  by_contra hneg
  push_neg at hneg
  unfold negative_sampling at h
  rw [if_pos hneg] at h
  exact SampleResult.noConfusion h

theorem negative_sampling_ok_core {pos : List (ℕ × ℕ)} {n : ℕ}
    {maxns : Option ℕ} {stream : ℕ → ℕ → List ℕ} {fuel : ℕ} {l : List (ℕ × ℕ)}
    (h : negative_sampling pos n maxns stream fuel = SampleResult.ok l) :
    ∃ perm,
      negSamplingCore (pos.map fun e => e.1 * n + e.2)
          (numSamplesOf pos.length n maxns).toNat stream fuel = some perm ∧
      l = perm.map fun p => (p / n, p % n) := by
  have hnn := negative_sampling_ok_nonneg h
  unfold negative_sampling at h
  rw [if_neg (not_lt.mpr hnn)] at h
  cases hcore : negSamplingCore (pos.map fun e => e.1 * n + e.2)
      (numSamplesOf pos.length n maxns).toNat stream fuel with
  | none => rw [hcore] at h; exact SampleResult.noConfusion h
  | some perm =>
      rw [hcore] at h
      refine ⟨perm, rfl, ?_⟩
      cases h
      rfl

theorem negative_sampling_ok_length {pos : List (ℕ × ℕ)} {n : ℕ}
    {maxns : Option ℕ} {stream : ℕ → ℕ → List ℕ} {fuel : ℕ} {l : List (ℕ × ℕ)}
    (hs : ValidStream (n * n) stream)
    (h : negative_sampling pos n maxns stream fuel = SampleResult.ok l) :
    l.length = (numSamplesOf pos.length n maxns).toNat := by
  obtain ⟨perm, hcore, hl⟩ := negative_sampling_ok_core h
  unfold negSamplingCore at hcore
  have hk := numSamples_toNat_le pos.length n maxns
  have hlen0 := (hs 0 _ hk).1
  rw [hl, List.length_map, sampleLoop_length _ _ _ _ _ _ _ hcore, hlen0]

theorem negative_sampling_ok_mem {pos : List (ℕ × ℕ)} {n : ℕ}
    {maxns : Option ℕ} {stream : ℕ → ℕ → List ℕ} {fuel : ℕ} {l : List (ℕ × ℕ)}
    (hs : ValidStream (n * n) stream)
    (h : negative_sampling pos n maxns stream fuel = SampleResult.ok l) :
    ∀ e ∈ l, e.1 < n ∧ e.2 < n := by
  obtain ⟨perm, hcore, hl⟩ := negative_sampling_ok_core h
  unfold negSamplingCore at hcore
  have hk := numSamples_toNat_le pos.length n maxns
  obtain ⟨hlen0, _, hbound0⟩ := hs 0 _ hk
  have hperm : ∀ p ∈ perm, p < n * n := by
    refine sampleLoop_mem _ _ _ hs _ _ _ _ _ hcore hbound0 ?_
    calc (restOf (stream 0 _) _).length
        ≤ (stream 0 _).length := restOf_length_le _ _
      _ ≤ n * n := by rw [hlen0]; exact hk
  subst hl
  intro e he
  obtain ⟨p, hpmem, hpe⟩ := List.mem_map.mp he
  have hp : p < n * n := hperm p hpmem
  have hn : 0 < n := by
    rcases Nat.eq_zero_or_pos n with h0 | h0
    · subst h0; simp at hp
    · exact h0
  subst hpe
  constructor
  · exact Nat.div_lt_of_lt_mul hp
  · exact Nat.mod_lt _ hn

theorem runPieces_ok (maxns : Option ℕ) (streams : ℕ → ℕ → ℕ → List ℕ)
    (fuel : ℕ) :
    ∀ (inputs : List (List (ℕ × ℕ) × ℕ)) (b0 prev : ℕ)
      (ps : List (List (ℕ × ℕ))),
      runPieces maxns streams fuel inputs b0 prev = PiecesResult.ok ps →
      ps.length = inputs.length ∧
      ∀ i, i < inputs.length →
        ∃ l, negative_sampling (inputs.getD i ([], 0)).1
              (inputs.getD i ([], 0)).2 maxns (streams (b0 + i)) fuel =
              SampleResult.ok l ∧
            ps.getD i [] =
              offsetEdges (prev + ((inputs.take i).map Prod.snd).sum) l := by
  intro inputs
  induction inputs with
  | nil =>
      intro b0 prev ps h
      simp only [runPieces] at h
      cases h
      exact ⟨rfl, fun i hi => absurd hi (by simp)⟩
  | cons pn rest ih =>
      intro b0 prev ps h
      obtain ⟨pe, n⟩ := pn
      simp only [runPieces] at h
      cases hns : negative_sampling pe n maxns (streams b0) fuel with
      | ok l =>
          rw [hns] at h
          cases hrec : runPieces maxns streams fuel rest (b0 + 1) (prev + n) with
          | ok ps' =>
              rw [hrec] at h
              cases h
              obtain ⟨hlen, hall⟩ := ih (b0 + 1) (prev + n) ps' hrec
              constructor
              · simp [hlen]
              · intro i hi
                cases i with
                | zero =>
                    refine ⟨l, ?_, ?_⟩
                    · simpa using hns
                    · simp
                | succ i =>
                    have hi' : i < rest.length := by simpa using hi
                    obtain ⟨l', h1, h2⟩ := hall i hi'
                    refine ⟨l', ?_, ?_⟩
                    · have : b0 + (i + 1) = b0 + 1 + i := by omega
                      rw [this]
                      simpa using h1
                    · simp only [List.getD_cons_succ, List.take_succ_cons,
                        List.map_cons, List.sum_cons, ← Nat.add_assoc]
                      exact h2
          | err => rw [hrec] at h; exact PiecesResult.noConfusion h
          | outOfFuel => rw [hrec] at h; exact PiecesResult.noConfusion h
      | err => rw [hns] at h; exact PiecesResult.noConfusion h
      | outOfFuel => rw [hns] at h; exact PiecesResult.noConfusion h

/-- Number of entries of `l` that are smaller than `b`.  For a batch
vector sorted in non-decreasing order this is the global index at which
the nodes of subgraph `b` start. -/
def countLtB (l : List ℕ) (b : ℕ) : ℕ := l.countP fun x => decide (x < b)

/-- Number of entries of `l` equal to `b`: the size of subgraph `b`. -/
def countEqB (l : List ℕ) (b : ℕ) : ℕ := l.countP fun x => decide (x = b)

theorem countEqB_le_length (l : List ℕ) (b : ℕ) : countEqB l b ≤ l.length :=
  List.countP_le_length _

theorem countLt_succ (l : List ℕ) (b : ℕ) :
    countLtB l (b + 1) = countLtB l b + countEqB l b := by
  induction l with
  | nil => rfl
  | cons a l ih =>
      simp only [countLtB, countEqB, List.countP_cons] at *
      rw [ih]
      by_cases h1 : a < b
      · have h2 : a < b + 1 := by omega
        have h3 : ¬ a = b := by omega
        simp [h1, h2, h3] <;> omega
      · by_cases h2 : a = b
        · have h3 : a < b + 1 := by omega
          simp [h1, h2, h3] <;> omega
        · have h3 : ¬ a < b + 1 := by omega
          simp [h1, h2, h3] <;> omega

theorem nonzeroEq_length (b : ℕ) :
    ∀ (l : List ℕ) (i : ℕ), (nonzeroEq b l i).length = countEqB l b := by
  intro l
  induction l with
  | nil => intro i; rfl
  | cons a l ih =>
      intro i
      by_cases h : a = b
      · simp [nonzeroEq, countEqB, List.countP_cons, h, ih (i + 1)]
      · simp [nonzeroEq, countEqB, List.countP_cons, h, ih (i + 1)]

theorem nodesOf_length (bl : List ℕ) (b : ℕ) :
    (nodesOf bl b).length = countEqB bl b :=
  nonzeroEq_length b bl 0

theorem nonzeroEq_mem (b : ℕ) :
    ∀ (l : List ℕ) (i p : ℕ),
      p ∈ nonzeroEq b l i ↔
        ∃ q, q < l.length ∧ p = i + q ∧ l.getD q 0 = b := by
  intro l
  induction l with
  | nil => intro i p; simp [nonzeroEq]
  | cons a l ih =>
      intro i p
      by_cases h : a = b
      · simp only [nonzeroEq, if_pos h, List.mem_cons, ih (i + 1) p]
        constructor
        · rintro (rfl | ⟨q, hq, rfl, hg⟩)
          · exact ⟨0, by simp, by omega, by simpa using h⟩
          · exact ⟨q + 1, by simp [hq], by omega, by simpa using hg⟩
        · rintro ⟨q, hq, rfl, hg⟩
          cases q with
          | zero => left; omega
          | succ q =>
              right
              exact ⟨q, by simpa using hq, by omega, by simpa using hg⟩
      · simp only [nonzeroEq, if_neg h, ih (i + 1) p]
        constructor
        · rintro ⟨q, hq, rfl, hg⟩
          exact ⟨q + 1, by simp [hq], by omega, by simpa using hg⟩
        · rintro ⟨q, hq, rfl, hg⟩
          cases q with
          | zero =>
              exfalso
              exact h (by simpa using hg)
          | succ q =>
              exact ⟨q, by simpa using hq, by omega, by simpa using hg⟩

theorem nodesOf_mem (bl : List ℕ) (b p : ℕ) :
    p ∈ nodesOf bl b ↔ p < bl.length ∧ bl.getD p 0 = b := by
  rw [nodesOf, nonzeroEq_mem]
  constructor
  · rintro ⟨q, hq, rfl, hg⟩
    have hz : (0 : ℕ) + q = q := Nat.zero_add q
    rw [hz]
    exact ⟨hq, hg⟩
  · rintro ⟨hp, hg⟩
    exact ⟨p, hp, by omega, hg⟩

theorem sorted_pos_value (l : List ℕ) (hl : List.Sorted (· ≤ ·) l) :
    ∀ (p : ℕ), p < l.length → ∀ b : ℕ,
      (l.getD p 0 = b ↔ countLtB l b ≤ p ∧ p < countLtB l b + countEqB l b) := by
  induction l with
  | nil => intro p hp; simp at hp
  | cons a l ih =>
      obtain ⟨ha, hl'⟩ := List.sorted_cons.mp hl
      intro p hp b
      have hcLt : countLtB (a :: l) b =
          countLtB l b + if a < b then 1 else 0 := by
        simp [countLtB, List.countP_cons]
      have hcEq : countEqB (a :: l) b =
          countEqB l b + if a = b then 1 else 0 := by
        simp [countEqB, List.countP_cons]
      cases p with
      | zero =>
          simp only [List.getD_cons_zero, hcLt, hcEq]
          rcases Nat.lt_trichotomy a b with hab | hab | hab
          · have hcl : 1 ≤ countLtB l b + 1 := by omega
            constructor
            · intro h; omega
            · intro ⟨h1, _⟩
              simp [hab] at h1
          · subst hab
            have hzero : countLtB l a = 0 := by
              simp only [countLtB]
              rw [List.countP_eq_zero]
              intro x hx
              simp only [decide_eq_true_eq]
              exact not_lt.mpr (ha x hx)
            simp [hzero, lt_irrefl]
          · have hzeroLt : countLtB l b = 0 := by
              simp only [countLtB]
              rw [List.countP_eq_zero]
              intro x hx
              simp only [decide_eq_true_eq]
              have := ha x hx
              omega
            have hzeroEq : countEqB l b = 0 := by
              simp only [countEqB]
              rw [List.countP_eq_zero]
              intro x hx
              simp only [decide_eq_true_eq]
              have := ha x hx
              omega
            have hne : ¬ a = b := by omega
            have hnlt : ¬ a < b := by omega
            simp [hzeroLt, hzeroEq, hne, hnlt] <;> omega
      | succ p =>
          have hp' : p < l.length := by simpa using hp
          have := ih hl' p hp' b
          simp only [List.getD_cons_succ, hcLt, hcEq, this]
          rcases Nat.lt_trichotomy a b with hab | hab | hab
          · have h1 : a < b := hab
            have h2 : ¬ a = b := by omega
            simp [h1, h2] <;> omega
          · subst hab
            have hzero : countLtB l a = 0 := by
              simp only [countLtB]
              rw [List.countP_eq_zero]
              intro x hx
              simp only [decide_eq_true_eq]
              exact not_lt.mpr (ha x hx)
            simp [hzero, lt_irrefl] <;> omega
          · have hzeroLt : countLtB l b = 0 := by
              simp only [countLtB]
              rw [List.countP_eq_zero]
              intro x hx
              simp only [decide_eq_true_eq]
              have := ha x hx
              omega
            have hzeroEq : countEqB l b = 0 := by
              simp only [countEqB]
              rw [List.countP_eq_zero]
              intro x hx
              simp only [decide_eq_true_eq]
              have := ha x hx
              omega
            have hmem : l.getD p 0 ∈ l := by
              rw [List.getD_eq_getElem _ _ hp']
              exact List.getElem_mem hp'
            have hval : b ≤ a := le_of_lt hab
            have hne2 : l.getD p 0 ≠ b := by
              have := ha _ hmem
              omega
            have hne : ¬ a = b := by omega
            have hnlt : ¬ a < b := by omega
            simp [hzeroLt, hzeroEq, hne, hnlt, hne2]

theorem sum_nodesOf (bl : List ℕ) :
    ∀ i : ℕ,
      ((List.range i).map fun b => (nodesOf bl b).length).sum = countLtB bl i := by
  intro i
  induction i with
  | zero =>
      simp only [List.range_zero, List.map_nil, List.sum_nil, countLtB]
      symm
      rw [List.countP_eq_zero]
      intro x _
      simp
  | succ i ih =>
      rw [List.range_succ, List.map_append, List.sum_append, ih]
      simp [countLt_succ, nodesOf_length]

theorem offsetEdges_length (off : ℕ) (l : List (ℕ × ℕ)) :
    (offsetEdges off l).length = l.length :=
  List.length_map _ _

theorem getD_range_map {α : Type} (f : ℕ → α) (B b : ℕ) (hb : b < B) (d : α) :
    ((List.range B).map f).getD b d = f b := by
  have hlen : b < ((List.range B).map f).length := by simpa using hb
  rw [List.getD_eq_getElem _ d hlen]
  simp

theorem sum_take_inputs (bl : List ℕ) (f : ℕ → List (ℕ × ℕ)) (B i : ℕ)
    (hi : i ≤ B) :
    ((((List.range B).map fun b => (f b, (nodesOf bl b).length)).take i).map
        Prod.snd).sum = countLtB bl i := by
  rw [← List.map_take, List.take_range, min_eq_left hi, List.map_map]
  exact sum_nodesOf bl i

theorem negative_sampling_eq_outOfFuel {pos : List (ℕ × ℕ)} {n : ℕ}
    {maxns : Option ℕ} {stream : ℕ → ℕ → List ℕ} {fuel : ℕ}
    (hnn : ¬ numSamplesOf pos.length n maxns < 0)
    (hcore : negSamplingCore (pos.map fun e => e.1 * n + e.2)
        (numSamplesOf pos.length n maxns).toNat stream fuel = none) :
    negative_sampling pos n maxns stream fuel = SampleResult.outOfFuel := by
  unfold negative_sampling
  rw [if_neg hnn, hcore]

theorem negative_sampling_ok_degenerate {pos : List (ℕ × ℕ)} {n : ℕ}
    {stream : ℕ → ℕ → List ℕ} {fuel : ℕ} {l : List (ℕ × ℕ)}
    (hs : ValidStream (n * n) stream)
    (h : negative_sampling pos n none stream fuel = SampleResult.ok l)
    (hdeg : n ≤ 1 ∨ pos = []) : l = [] := by
  have hlen := negative_sampling_ok_length hs h
  have hnn := negative_sampling_ok_nonneg h
  have hkey : numSamplesOf pos.length n none =
      min ((pos.length : ℕ) : ℤ) ((n : ℤ) * n - (pos.length : ℤ)) := rfl
  have hcast : ((n : ℤ) * n) = ((n * n : ℕ) : ℤ) := by push_cast; ring
  rw [hkey, hcast] at hlen hnn
  have hlen0 : l.length = 0 := by
    rcases hdeg with hn | hp
    · have hm : n * n ≤ 1 := by
        calc n * n ≤ 1 * 1 := Nat.mul_le_mul hn hn
          _ = 1 := by norm_num
      omega
    · rw [hp] at hlen
      simp only [List.length_nil] at hlen
      omega
  exact List.length_eq_zero.mp hlen0

/-- An edge of the global positive list whose endpoints carry different
batch ids (both endpoints being valid node positions). -/
def crossing (bl : List ℕ) (e : ℕ × ℕ) : Bool :=
  decide (e.1 < bl.length) && decide (e.2 < bl.length) &&
    !(decide (bl.getD e.1 0 = bl.getD e.2 0))

theorem subgraphEdges_drop_crossing (bl : List ℕ) (b : ℕ)
    (pos : List (ℕ × ℕ)) :
    subgraphEdges (nodesOf bl b) (pos.filter fun e => !crossing bl e) =
      subgraphEdges (nodesOf bl b) pos := by
  unfold subgraphEdges
  rw [List.filter_filter]
  congr 1
  apply List.filter_congr
  intro e _
  by_cases h1 : (decide (e.1 ∈ nodesOf bl b) && decide (e.2 ∈ nodesOf bl b)) = true
  · rw [Bool.and_eq_true, decide_eq_true_eq, decide_eq_true_eq] at h1
    obtain ⟨m1a, m1b⟩ := (nodesOf_mem bl b e.1).mp h1.1
    obtain ⟨m2a, m2b⟩ := (nodesOf_mem bl b e.2).mp h1.2
    have hcross : crossing bl e = false := by
      unfold crossing
      rw [m1b, m2b]
      simp
    simp [hcross, h1.1, h1.2]
  · rw [Bool.and_eq_true, decide_eq_true_eq, decide_eq_true_eq] at h1
    push_neg at h1
    by_cases h2 : e.1 ∈ nodesOf bl b
    · simp [h2, h1 h2]
    · simp [h2]

/-- Draw stream realising the C1 failing run on the 2-node graph with
positive edges (0,0) and (0,1): first draw [2, 0], then redraw [1]
(a collision, written into the collision slot), then [3] (clean, but
written into the *wrong* slot because the source tracks positions into
`tmp` instead of positions into `perm`). -/
def c1Stream : ℕ → ℕ → List ℕ := fun t k =>
  if t = 0 then (if k = 2 then [2, 0] else List.range k)
  else if t = 1 then (if k = 1 then [1] else List.range k)
  else if t = 2 then (if k = 1 then [3] else List.range k)
  else List.range k

theorem c1Stream_valid : ValidStream 4 c1Stream := by
  intro t k hk
  have hr : (List.range k).length = k ∧ (List.range k).Nodup ∧
      ∀ x ∈ List.range k, x < 4 :=
    ⟨List.length_range k, List.nodup_range k,
      fun x hx => lt_of_lt_of_le (List.mem_range.mp hx) hk⟩
  unfold c1Stream
  split_ifs <;> first | exact hr | (subst_vars; exact ⟨rfl, by decide, by decide⟩)

/-- Adversarial draw stream: the initial draw [2, 0] has one collision
with the positive indices of the 2-node graph with edges (0,0), (0,1),
and every subsequent single-element redraw returns [0], a collision. -/
def badStream : ℕ → ℕ → List ℕ := fun _ k =>
  if k = 1 then [0] else if k = 2 then [2, 0] else List.range k

theorem badStream_valid : ValidStream 4 badStream := by
  intro t k hk
  have hr : (List.range k).length = k ∧ (List.range k).Nodup ∧
      ∀ x ∈ List.range k, x < 4 :=
    ⟨List.length_range k, List.nodup_range k,
      fun x hx => lt_of_lt_of_le (List.mem_range.mp hx) hk⟩
  unfold badStream
  split_ifs <;> first | exact hr | (subst_vars; exact ⟨rfl, by decide, by decide⟩)

theorem badStream_loops :
    ∀ (fuel : ℕ) (perm : List ℕ) (t : ℕ),
      sampleLoop [0, 1] badStream fuel perm [0] t = none := by
  intro fuel
  induction fuel with
  | zero => intro perm t; rfl
  | succ fuel ih => intro perm t; exact ih (writeAt perm [0] [0]) (t + 1)

theorem negative_sampling_badStream (fuel : ℕ) :
    negative_sampling [(0, 0), (0, 1)] 2 none badStream fuel =
      SampleResult.outOfFuel := by
  refine negative_sampling_eq_outOfFuel (by decide) ?_
  show sampleLoop [0, 1] badStream fuel [2, 0] [1] 1 = none
  cases fuel with
  | zero => rfl
  | succ fuel => exact badStream_loops fuel (writeAt [2, 0] [1] [0]) 2

/-- Draw stream for the C6 counterexample: every single-element draw
returns [2], which never collides. -/
def c6Stream : ℕ → ℕ → List ℕ := fun _ k =>
  if k = 1 then [2] else List.range k

theorem c6Stream_valid : ValidStream 4 c6Stream := by
  intro t k hk
  have hr : (List.range k).length = k ∧ (List.range k).Nodup ∧
      ∀ x ∈ List.range k, x < 4 :=
    ⟨List.length_range k, List.nodup_range k,
      fun x hx => lt_of_lt_of_le (List.mem_range.mp hx) hk⟩
  unfold c6Stream
  split_ifs <;> first | exact hr | (subst_vars; exact ⟨rfl, by decide, by decide⟩)

/-- Claim C1: the spec asserts that the edge list returned by
`negative_sampling` is always disjoint from the positive edge set, because
every colliding sample is redrawn and re-checked until the colliding
subset is empty.  The code violates this: line 33 sets
`rest = mask.nonzero()` where `mask` was computed over `tmp`, instead of
`rest = rest[mask.nonzero()]` (the indexing used by the algorithm the
spec describes), so from the second redraw round on, fresh samples are
written into the wrong slots of `perm` and colliding entries survive.
On the 2-node graph with positive edges (0,0), (0,1) and the realisable
draw sequence [2,0], [1], [3] the sampler returns [(1,1), (0,1)], and
(0,1) is a positive edge. -/
theorem C1_code_bug :
    negative_sampling [(0, 0), (0, 1)] 2 none c1Stream 10 =
        SampleResult.ok [(1, 1), (0, 1)] ∧
      ((0, 1) : ℕ × ℕ) ∈ [((0, 0) : ℕ × ℕ), (0, 1)] ∧
      ValidStream 4 c1Stream :=
  ⟨by decide, by decide, c1Stream_valid⟩

/-- Claim C3 (corrected): the redraw loop of `negative_sampling` has no
retry cap and surfaces no fatal error.  For every fuel bound there is a
draw stream, realisable by `random.sample` (it satisfies `ValidStream`),
on which the loop is still rejecting after that many rounds. -/
theorem C3_corrected (fuel : ℕ) :
    ValidStream 4 badStream ∧
      negative_sampling [(0, 0), (0, 1)] 2 none badStream fuel =
        SampleResult.outOfFuel :=
  ⟨badStream_valid, negative_sampling_badStream fuel⟩

/-- Claim C3 as stated is false: there is no iteration cap after which
`negative_sampling` stops looping (with either a result or an error) for
every realisable draw stream. -/
theorem C3_counterexample :
    ¬ ∃ cap : ℕ, ∀ stream : ℕ → ℕ → List ℕ, ValidStream 4 stream →
        negative_sampling [(0, 0), (0, 1)] 2 none stream cap ≠
          SampleResult.outOfFuel := by
  rintro ⟨cap, h⟩
  exact h badStream badStream_valid (negative_sampling_badStream cap)

/-- Claim C4 as stated is false: with batch ids [0,0,1,1] the positive
edge (1,2) crosses the subgraph boundary, yet `batch_negative_sampling`
does not report an error — it returns a normal result in which the
crossing edge was silently dropped by `subgraph`. -/
theorem C4_counterexample :
    batch_negative_sampling_pieces [(0, 1), (1, 2), (2, 3)] none
        (some [0, 0, 1, 1]) none rangeStreams 5 =
        PiecesResult.ok [[(0, 0)], [(2, 2)]] ∧
      crossing [0, 0, 1, 1] (1, 2) = true ∧
      ((1, 2) : ℕ × ℕ) ∈ [((0, 1) : ℕ × ℕ), (1, 2), (2, 3)] :=
  ⟨by decide, by decide, by decide⟩

/-- Claim C4 (corrected): edges crossing subgraph boundaries are silently
ignored, not fatal: removing every crossing edge from the positive list
beforehand leaves the result of `batch_negative_sampling` unchanged. -/
theorem C4_corrected (bl : List ℕ) (pos : List (ℕ × ℕ))
    (num_nodes : Option ℕ) (maxns : Option ℕ)
    (streams : ℕ → ℕ → ℕ → List ℕ) (fuel : ℕ) :
    batch_negative_sampling_pieces (pos.filter fun e => !crossing bl e)
        num_nodes (some bl) maxns streams fuel =
      batch_negative_sampling_pieces pos num_nodes (some bl) maxns streams
        fuel := by
  unfold batch_negative_sampling_pieces pieceInputs
  by_cases hbl : bl.isEmpty
  · simp [hbl]
  · simp only [hbl, Bool.false_eq_true, if_false]
    have hmap : ((List.range (bl.foldl max 0 + 1)).map fun b =>
          (subgraphEdges (nodesOf bl b) (pos.filter fun e => !crossing bl e),
            (nodesOf bl b).length)) =
        (List.range (bl.foldl max 0 + 1)).map fun b =>
          (subgraphEdges (nodesOf bl b) pos, (nodesOf bl b).length) := by
      apply List.map_congr_left
      intro b _
      rw [subgraphEdges_drop_crossing]
    rw [hmap]

/-- Claim C5 as stated is false in two ways.  Zero requested samples:
with one 2-node subgraph holding one positive edge and an explicit
request of zero samples, Python's `max_num_samples or E` treats 0 as
falsy and requests E = 1 samples, so the subgraph contributes one sample
instead of zero.  Size-one subgraph: a batch consisting of one single
node makes the call raise (`TypeError` from `len()` of the 0-dim
`squeeze()` at line 54) instead of contributing zero samples. -/
theorem C5_counterexample :
    batch_negative_sampling_pieces [(0, 1)] none (some [0, 0]) (some 0)
        rangeStreams 5 = PiecesResult.ok [[(0, 0)]] ∧
      requestedSamples 1 (some 0) = 1 ∧
      batch_negative_sampling_pieces [] none (some [0]) none rangeStreams 1 =
        PiecesResult.err :=
  ⟨by decide, by decide, by decide⟩

/-- Claim C5 (corrected): in the batched path, a subgraph with exactly
one node makes the whole call fail — line 54 computes
`len(torch.nonzero(batch == b).squeeze())`, and `len()` of the
0-dimensional tensor produced by `.squeeze()` raises `TypeError` — rather
than contributing zero samples.  A subgraph of size zero (a skipped batch
id), or one whose relabelled positive edge list is empty, contributes
zero samples and raises no error when `max_num_samples` is omitted (as in
`forward`).  An explicit request of zero is coerced to the edge count by
the truthiness default and can contribute samples (see the
counterexample). -/
theorem C5_corrected :
    (∀ (bl : List ℕ) (pos : List (ℕ × ℕ)) (maxns : Option ℕ)
        (streams : ℕ → ℕ → ℕ → List ℕ) (fuel : ℕ) (b : ℕ),
        b < bl.foldl max 0 + 1 → (nodesOf bl b).length = 1 →
        batch_negative_sampling_pieces pos none (some bl) maxns streams
          fuel = PiecesResult.err) ∧
    (∀ (bl : List ℕ) (pos : List (ℕ × ℕ)) (streams : ℕ → ℕ → ℕ → List ℕ)
        (fuel : ℕ) (pieces : List (List (ℕ × ℕ))) (b : ℕ),
        batch_negative_sampling_pieces pos none (some bl) none streams
          fuel = PiecesResult.ok pieces →
        ValidStream ((nodesOf bl b).length * (nodesOf bl b).length)
          (streams b) →
        ((nodesOf bl b).length ≤ 1 ∨ subgraphEdges (nodesOf bl b) pos = []) →
        b < pieces.length →
        pieces.getD b [] = []) := by
  constructor
  · intro bl pos maxns streams fuel b hb hone
    unfold batch_negative_sampling_pieces pieceInputs
    by_cases hbl : bl.isEmpty
    · simp [hbl]
    · simp only [hbl, Bool.false_eq_true, if_false]
      have hany : ((List.range (bl.foldl max 0 + 1)).any fun b' =>
          (nodesOf bl b').length == 1) = true := by
        rw [List.any_eq_true]
        exact ⟨b, List.mem_range.mpr hb, by simp [hone]⟩
      simp [hany]
  · intro bl pos streams fuel pieces b hok hs hdeg hb
    unfold batch_negative_sampling_pieces pieceInputs at hok
    by_cases hbl : bl.isEmpty
    · simp [hbl] at hok
    · simp only [hbl, Bool.false_eq_true, if_false] at hok
      cases hany : ((List.range (bl.foldl max 0 + 1)).any fun b' =>
          (nodesOf bl b').length == 1) with
      | true =>
          rw [hany] at hok
          simp at hok
      | false =>
          rw [hany] at hok
          simp only [Bool.false_eq_true, if_false] at hok
          obtain ⟨hlen, hall⟩ := runPieces_ok _ _ _ _ _ _ _ hok
          rw [hlen] at hb
          have hb' : b < bl.foldl max 0 + 1 := by simpa using hb
          obtain ⟨l, hns, hpb⟩ := hall b hb
          rw [getD_range_map _ _ _ hb'] at hns
          rw [Nat.zero_add] at hns
          have hl : l = [] := negative_sampling_ok_degenerate hs hns (by
            rcases hdeg with h | h
            · exact Or.inl h
            · exact Or.inr h)
          rw [hpb, hl]
          rfl

/-- Claim C6 as stated is false when the positive edge list contains
duplicates: on the 2-node graph with edge list [(0,0), (0,0), (0,1)] the
distinct non-edges are (1,0) and (1,1) (capacity 2) and the defaulted
request is 3 > 2, yet the sampler returns exactly one sample, because the
code subtracts the *length* of the edge list (3), not the size of the
positive edge *set* (2), from n². -/
theorem C6_counterexample :
    negative_sampling [(0, 0), (0, 0), (0, 1)] 2 none c6Stream 5 =
        SampleResult.ok [(1, 0)] ∧
      ((List.range 4).filter fun p => decide (p ∉ [0, 0, 1])).length = 2 ∧
      ValidStream 4 c6Stream :=
  ⟨by decide, by decide, c6Stream_valid⟩

/-- Claim C6 (corrected): whenever the redraw loop terminates,
`negative_sampling` returns exactly `min(max_requested', n² − E)` samples,
where `E` is the *length* of the positive edge list (duplicates counted,
so this equals `n² − |P|` only for duplicate-free lists) and
`max_requested'` is the truthiness-defaulted request; in particular a
request exceeding `n² − E` yields exactly `n² − E` samples.  Termination
itself is not guaranteed (see C3), and the samples need not avoid the
positive set (see C1). -/
theorem C6_corrected (pos : List (ℕ × ℕ)) (n : ℕ) (maxns : Option ℕ)
    (stream : ℕ → ℕ → List ℕ) (fuel : ℕ) (l : List (ℕ × ℕ))
    (hs : ValidStream (n * n) stream)
    (h : negative_sampling pos n maxns stream fuel = SampleResult.ok l) :
    l.length = (numSamplesOf pos.length n maxns).toNat :=
  negative_sampling_ok_length hs h

/-- Witness for C6 (corrected): a concrete over-large request.  On the
2-node graph with a single positive edge, requesting 5 samples yields
exactly `n² − E = 3` samples. -/
theorem C6_witness :
    negative_sampling [(0, 1)] 2 (some 5) rangeStream 1 =
        SampleResult.ok [(0, 0), (0, 0), (1, 0)] ∧
      [((0 : ℕ), (0 : ℕ)), (0, 0), (1, 0)].length =
        (numSamplesOf 1 2 (some 5)).toNat ∧
      (numSamplesOf 1 2 (some 5)).toNat = 3 :=
  ⟨by decide,
    C6_corrected [(0, 1)] 2 (some 5) rangeStream 1 _ (rangeStream_valid 4)
      (by decide),
    by decide⟩

/-- Witness for C5 (corrected): a single one-node subgraph with no edges
contributes the empty sample list. -/
theorem C5_witness :
    batch_negative_sampling_pieces [] none (some [0]) none rangeStreams 1 =
        PiecesResult.err ∧
      batch_negative_sampling_pieces [] none (some [0, 0, 2, 2]) none
        rangeStreams 1 = PiecesResult.ok [[], [], []] ∧
      [([] : List (ℕ × ℕ)), [], []].getD 1 [] = [] :=
  ⟨C5_corrected.1 [0] [] none rangeStreams 1 0 (by decide) (by decide),
    by decide,
    C5_corrected.2 [0, 0, 2, 2] [] rangeStreams 1 [[], [], []] 1 (by decide)
      (rangeStream_valid _) (Or.inl (by decide)) (by decide)⟩

theorem countLtB_le_length (l : List ℕ) (b : ℕ) : countLtB l b ≤ l.length :=
  List.countP_le_length _

/-- Claim C8: when nodes are grouped by batch id (the batch vector is
sorted non-decreasingly), every negative edge returned by
`batch_negative_sampling` has both endpoints inside one subgraph: both
endpoints are valid node positions carrying the same batch id, namely the
id of the subgraph the sample was drawn for. -/
theorem C8_theorem (bl : List ℕ) (pos : List (ℕ × ℕ))
    (streams : ℕ → ℕ → ℕ → List ℕ) (fuel : ℕ) (out : List (ℕ × ℕ))
    (hsort : List.Sorted (· ≤ ·) bl)
    (hs : ∀ b, ValidStream ((nodesOf bl b).length * (nodesOf bl b).length)
      (streams b))
    (hok : batch_negative_sampling pos none (some bl) none streams fuel =
      SampleResult.ok out) :
    ∀ e ∈ out, ∃ b, e.1 < bl.length ∧ e.2 < bl.length ∧
      bl.getD e.1 0 = b ∧ bl.getD e.2 0 = b := by
  unfold batch_negative_sampling at hok
  cases hps : batch_negative_sampling_pieces pos none (some bl) none streams
      fuel with
  | err => rw [hps] at hok; exact SampleResult.noConfusion hok
  | outOfFuel => rw [hps] at hok; exact SampleResult.noConfusion hok
  | ok ps =>
      rw [hps] at hok
      have hout : out = ps.flatten := by cases hok; rfl
      subst hout
      unfold batch_negative_sampling_pieces pieceInputs at hps
      by_cases hbl : bl.isEmpty
      · simp [hbl] at hps
      · simp only [hbl, Bool.false_eq_true, if_false] at hps
        cases hany : ((List.range (bl.foldl max 0 + 1)).any fun b =>
            (nodesOf bl b).length == 1) with
        | true =>
            rw [hany] at hps
            simp at hps
        | false =>
            rw [hany] at hps
            simp only [Bool.false_eq_true, if_false] at hps
            obtain ⟨hlen, hall⟩ := runPieces_ok _ _ _ _ _ _ _ hps
            intro e he
            obtain ⟨piece, hpmem, hep⟩ := List.mem_flatten.mp he
            obtain ⟨i, hi, hgi⟩ := List.mem_iff_getElem.mp hpmem
            have hiInputs : i < ((List.range (bl.foldl max 0 + 1)).map fun b =>
                (subgraphEdges (nodesOf bl b) pos,
                  (nodesOf bl b).length)).length := by
              rw [← hlen]; exact hi
            have hiB : i < bl.foldl max 0 + 1 := by simpa using hiInputs
            obtain ⟨l, hns, hpb⟩ := hall i hiInputs
            rw [getD_range_map _ _ _ hiB] at hns
            rw [Nat.zero_add] at hns
            have hmem := negative_sampling_ok_mem (hs i) hns
            have hoff : ((((List.range (bl.foldl max 0 + 1)).map fun b =>
                  (subgraphEdges (nodesOf bl b) pos,
                    (nodesOf bl b).length)).take
                    i).map Prod.snd).sum = countLtB bl i :=
              sum_take_inputs bl _ _ i (Nat.le_of_lt hiB)
            rw [hoff, Nat.zero_add] at hpb
            have hpiece : piece = offsetEdges (countLtB bl i) l := by
              rw [← hpb, List.getD_eq_getElem ps [] hi, hgi]
            subst hpiece
            obtain ⟨e', he', hee⟩ := List.mem_map.mp hep
            obtain ⟨h1, h2⟩ := hmem e' he'
            rw [nodesOf_length] at h1 h2
            have hlt1 : e'.1 + countLtB bl i < bl.length := by
              have := countLtB_le_length bl (i + 1)
              rw [countLt_succ] at this
              omega
            have hlt2 : e'.2 + countLtB bl i < bl.length := by
              have := countLtB_le_length bl (i + 1)
              rw [countLt_succ] at this
              omega
            refine ⟨i, ?_⟩
            rw [← hee]
            refine ⟨hlt1, hlt2, ?_, ?_⟩
            · exact (sorted_pos_value bl hsort _ hlt1 i).mpr (by omega)
            · exact (sorted_pos_value bl hsort _ hlt2 i).mpr (by omega)

/-- Witness for C8: two disjoint triangles batched as [0,0,0,1,1,1]; the
sample (3,5) of the second triangle carries batch id 1 on both
endpoints. -/
theorem C8_witness :
    (3 : ℕ) < [0, 0, 0, 1, 1, 1].length ∧
      (5 : ℕ) < [0, 0, 0, 1, 1, 1].length ∧
      [0, 0, 0, 1, 1, 1].getD 3 0 = 1 ∧ [0, 0, 0, 1, 1, 1].getD 5 0 = 1 := by
  obtain ⟨b, h1, h2, h3, h4⟩ :=
    C8_theorem [0, 0, 0, 1, 1, 1] [(0, 1), (1, 2), (2, 0), (3, 4), (4, 5), (5, 3)]
      rangeStreams 9
      [(0, 0), (0, 0), (0, 2), (3, 3), (3, 3), (3, 5)]
      (by decide) (fun b => rangeStream_valid _) (by decide)
      (3, 5) (by decide)
  have hb : b = 1 := by
    rw [← h3]
    decide
  subst hb
  exact ⟨h1, h2, h3, h4⟩

/-- Claim C10: `forward` calls the sampler without an explicit maximum
(lines 139-143), so for every subgraph the defaulted request equals its
positive-edge count `E_b`, and whenever sampling succeeds the subgraph
contributes exactly `min(E_b, n_b² − E_b)` negative edges. -/
theorem C10_theorem (N : ℕ) (edges : List (ℕ × ℕ)) (batch : Option (List ℕ))
    (streams : ℕ → ℕ → ℕ → List ℕ) (fuel : ℕ)
    (inputs : List (List (ℕ × ℕ) × ℕ)) (pieces : List (List (ℕ × ℕ)))
    (hin : pieceInputs edges (some N) batch = some inputs)
    (hok : forwardNegativeSampling N edges batch streams fuel =
      PiecesResult.ok pieces)
    (hs : ∀ b, ValidStream
      ((inputs.getD b ([], 0)).2 * (inputs.getD b ([], 0)).2) (streams b)) :
    ∀ b, b < inputs.length →
      (pieces.getD b []).length =
        min (inputs.getD b ([], 0)).1.length
          ((inputs.getD b ([], 0)).2 * (inputs.getD b ([], 0)).2 -
            (inputs.getD b ([], 0)).1.length) := by
  unfold forwardNegativeSampling batch_negative_sampling_pieces at hok
  simp only [hin] at hok
  obtain ⟨hlen, hall⟩ := runPieces_ok _ _ _ _ _ _ _ hok
  intro b hb
  obtain ⟨l, hns, hpb⟩ := hall b hb
  rw [Nat.zero_add] at hns
  have hl := negative_sampling_ok_length (hs b) hns
  rw [hpb, offsetEdges_length, hl]
  have hkey : numSamplesOf (inputs.getD b ([], 0)).1.length
      (inputs.getD b ([], 0)).2 none =
      min (((inputs.getD b ([], 0)).1.length : ℕ) : ℤ)
        (((inputs.getD b ([], 0)).2 : ℤ) * ((inputs.getD b ([], 0)).2 : ℤ) -
          ((inputs.getD b ([], 0)).1.length : ℤ)) := rfl
  have hcast : (((inputs.getD b ([], 0)).2 : ℤ) *
      ((inputs.getD b ([], 0)).2 : ℤ)) =
      (((inputs.getD b ([], 0)).2 * (inputs.getD b ([], 0)).2 : ℕ) : ℤ) := by
    push_cast
    ring
  rw [hkey, hcast]
  omega

/-- Witness for C10: one 2-node subgraph with a single positive edge
contributes `min(1, 4 − 1) = 1` negative edge. -/
theorem C10_witness :
    ([[((0 : ℕ), (0 : ℕ))]].getD 0 []).length =
      min (([([((0 : ℕ), (1 : ℕ))], 2)].getD 0 ([], 0)).1.length)
        (([([((0 : ℕ), (1 : ℕ))], 2)].getD 0 ([], 0)).2 *
            ([([((0 : ℕ), (1 : ℕ))], 2)].getD 0 ([], 0)).2 -
          ([([((0 : ℕ), (1 : ℕ))], 2)].getD 0 ([], 0)).1.length) :=
  C10_theorem 2 [(0, 1)] (some [0, 0]) rangeStreams 2 [([(0, 1)], 2)]
    [[(0, 0)]] (by decide) (by decide) (fun b => rangeStream_valid _) 0
    (by decide)

/-- Embedding of `torch_geometric.utils.remove_self_loops` as called at
line 126: drop every edge whose endpoints coincide. -/
def remove_self_loops (edges : List (ℕ × ℕ)) : List (ℕ × ℕ) :=
  edges.filter fun e => !(decide (e.1 = e.2))

/-- Embedding of `torch_geometric.utils.add_self_loops(edges, num_nodes =
x.size(0))` as called at line 127: append one loop per node id
0..N-1. -/
def add_self_loops (edges : List (ℕ × ℕ)) (num_nodes : ℕ) : List (ℕ × ℕ) :=
  edges ++ (List.range num_nodes).map fun i => (i, i)

/-- The self-loop normalization applied by `forward` (lines 125-127) when
no size hint is given and the input is a single feature matrix. -/
def normalizeSelfLoops (edges : List (ℕ × ℕ)) (num_nodes : ℕ) :
    List (ℕ × ℕ) :=
  add_self_loops (remove_self_loops edges) num_nodes

/-- The self-loop sublist of an edge list. -/
def selfLoops (edges : List (ℕ × ℕ)) : List (ℕ × ℕ) :=
  edges.filter fun e => decide (e.1 = e.2)

theorem selfLoops_remove (edges : List (ℕ × ℕ)) :
    selfLoops (remove_self_loops edges) = [] := by
  unfold selfLoops remove_self_loops
  rw [List.filter_filter]
  rw [List.filter_eq_nil_iff]
  intro e _
  simp

theorem selfLoops_range_map (N : ℕ) :
    selfLoops ((List.range N).map fun i => ((i, i) : ℕ × ℕ)) =
      (List.range N).map fun i => ((i, i) : ℕ × ℕ) := by
  apply List.filter_eq_self.mpr
  intro e he
  obtain ⟨j, _, hj⟩ := List.mem_map.mp he
  subst hj
  simp

theorem selfLoops_normalize (edges : List (ℕ × ℕ)) (N : ℕ) :
    selfLoops (normalizeSelfLoops edges N) =
      (List.range N).map fun i => ((i, i) : ℕ × ℕ) := by
  unfold normalizeSelfLoops add_self_loops
  unfold selfLoops at *
  rw [List.filter_append]
  have h1 := selfLoops_remove edges
  unfold selfLoops remove_self_loops at h1
  unfold remove_self_loops
  rw [h1, List.nil_append]
  exact selfLoops_range_map N

/-- Use the decidable-equality `BEq` instance for edges from here on, so
that the generic counting lemmas and the permutation lemmas (which assume
decidable equality) agree on instances. -/
@[reducible] instance (priority := 2000) : BEq (ℕ × ℕ) :=
  instBEqOfDecidableEq

instance (priority := 2000) : LawfulBEq (ℕ × ℕ) where
  eq_of_beq h := of_decide_eq_true h
  rfl := decide_eq_true rfl

/-- Multiplicity of an edge in an edge list. -/
def edgeCount (p : ℕ × ℕ) (l : List (ℕ × ℕ)) : ℕ :=
  l.count p

theorem edgeCount_eq_zero {p : ℕ × ℕ} {l : List (ℕ × ℕ)} (h : p ∉ l) :
    edgeCount p l = 0 := by
  unfold edgeCount
  exact List.count_eq_zero_of_not_mem h

theorem edgeCount_range_map (N i : ℕ) :
    edgeCount (i, i) ((List.range N).map fun j => ((j, j) : ℕ × ℕ)) =
      if i < N then 1 else 0 := by
  have hinj : Function.Injective fun j => ((j, j) : ℕ × ℕ) := by
    intro a b h
    simpa using h
  have h' : edgeCount (i, i) ((List.range N).map fun j => ((j, j) : ℕ × ℕ)) =
      (List.range N).count i :=
    List.count_map_of_injective (List.range N)
      (fun j => ((j, j) : ℕ × ℕ)) hinj i
  rw [h']
  by_cases h : i < N
  · rw [if_pos h]
    exact List.count_eq_one_of_mem (List.nodup_range N) (List.mem_range.mpr h)
  · rw [if_neg h]
    exact List.count_eq_zero_of_not_mem (by simpa using h)

theorem edgeCount_range_map_ne (N : ℕ) (p : ℕ × ℕ) (hp : p.1 ≠ p.2) :
    edgeCount p ((List.range N).map fun j => ((j, j) : ℕ × ℕ)) = 0 := by
  apply edgeCount_eq_zero
  intro hmem
  obtain ⟨j, _, hj⟩ := List.mem_map.mp hmem
  apply hp
  rw [← hj]

theorem edgeCount_remove_self_loops (edges : List (ℕ × ℕ)) (i : ℕ) :
    edgeCount (i, i) (remove_self_loops edges) = 0 := by
  apply edgeCount_eq_zero
  intro hmem
  have := (List.mem_filter.mp hmem).2
  simp at this

theorem edgeCount_selfLoops (edges : List (ℕ × ℕ)) (a : ℕ) :
    edgeCount (a, a) (selfLoops edges) = edgeCount (a, a) edges := by
  unfold edgeCount selfLoops
  exact List.count_filter (by simp)

/-- Claim C7: self-loop normalization (remove all loops, then append one
loop per node id below N) leaves exactly one self-loop per node id
0..N-1, no loops outside that range, keeps the self-loop set of an input
that already carries exactly one loop per node (as a permutation — loops
are moved to the tail), and is idempotent as a transformation. -/
theorem C7_theorem (edges : List (ℕ × ℕ)) (N : ℕ) :
    (∀ i, i < N → edgeCount (i, i) (normalizeSelfLoops edges N) = 1) ∧
    (∀ e ∈ normalizeSelfLoops edges N, e.1 = e.2 → ∃ i, i < N ∧ e = (i, i)) ∧
    ((∀ e ∈ edges, e.1 < N ∧ e.2 < N) →
      (∀ i, i < N → edgeCount (i, i) edges = 1) →
      (selfLoops (normalizeSelfLoops edges N)).Perm (selfLoops edges)) ∧
    normalizeSelfLoops (normalizeSelfLoops edges N) N =
      normalizeSelfLoops edges N := by
  refine ⟨?_, ?_, ?_, ?_⟩
  · intro i hi
    unfold normalizeSelfLoops add_self_loops
    have happ : edgeCount (i, i)
        (remove_self_loops edges ++
          (List.range N).map fun j => ((j, j) : ℕ × ℕ)) =
        edgeCount (i, i) (remove_self_loops edges) +
          edgeCount (i, i) ((List.range N).map fun j => ((j, j) : ℕ × ℕ)) := by
      unfold edgeCount
      rw [List.count_append]
    rw [happ, edgeCount_remove_self_loops, edgeCount_range_map, if_pos hi]
  · intro e he hloop
    unfold normalizeSelfLoops add_self_loops at he
    rcases List.mem_append.mp he with h | h
    · have := (List.mem_filter.mp h).2
      rw [hloop] at this
      simp at this
    · obtain ⟨j, hj, hje⟩ := List.mem_map.mp h
      exact ⟨j, List.mem_range.mp hj, hje.symm⟩
  · intro hbound hcount
    rw [List.perm_iff_count]
    intro p
    show edgeCount p (selfLoops (normalizeSelfLoops edges N)) =
      edgeCount p (selfLoops edges)
    rw [selfLoops_normalize]
    by_cases hp : p.1 = p.2
    · obtain ⟨a, b⟩ := p
      simp only at hp
      subst hp
      rw [edgeCount_range_map N a, edgeCount_selfLoops]
      by_cases ha : a < N
      · rw [if_pos ha, hcount a ha]
      · rw [if_neg ha]
        have hnm : (a, a) ∉ edges := by
          intro hmem
          exact ha (hbound _ hmem).1
        rw [edgeCount_eq_zero hnm]
    · rw [edgeCount_range_map_ne N p hp]
      symm
      apply edgeCount_eq_zero
      intro hmem
      exact hp (by simpa using (List.mem_filter.mp hmem).2)
  · unfold normalizeSelfLoops add_self_loops remove_self_loops
    rw [List.filter_append]
    have h1 : (edges.filter fun e => !(decide (e.1 = e.2))).filter
        (fun e => !(decide (e.1 = e.2))) =
        edges.filter fun e => !(decide (e.1 = e.2)) :=
      List.filter_eq_self.mpr fun e he => (List.mem_filter.mp he).2
    have h2 : ((List.range N).map fun i => ((i, i) : ℕ × ℕ)).filter
        (fun e => !(decide (e.1 = e.2))) = [] := by
      rw [List.filter_eq_nil_iff]
      intro e he
      obtain ⟨j, _, hj⟩ := List.mem_map.mp he
      subst hj
      simp
    rw [h1, h2, List.append_nil]

/-- Witness for C7: a 2-node graph already carrying one self-loop per
node keeps its self-loop set (up to permutation), and each node has
exactly one loop after normalization. -/
theorem C7_witness :
    edgeCount (0, 0) (normalizeSelfLoops [(0, 0), (1, 1), (0, 1)] 2) = 1 ∧
      (selfLoops (normalizeSelfLoops [(0, 0), (1, 1), (0, 1)] 2)).Perm
        (selfLoops [(0, 0), (1, 1), (0, 1)]) :=
  ⟨(C7_theorem [(0, 0), (1, 1), (0, 1)] 2).1 0 (by decide),
    (C7_theorem [(0, 0), (1, 1), (0, 1)] 2).2.2.1 (by decide) (by decide)⟩

/-- Embedding of `F.leaky_relu` with negative slope `slope`
(line 210). -/
noncomputable def leakyRelu (slope x : ℝ) : ℝ := if x < 0 then slope * x else x

/-- The group of edges sharing destination `i`: the segment over which
the softmax of line 211 normalizes. -/
def groupOf (edges : List (ℕ × ℕ)) (i : ℕ) : List (ℕ × ℕ) :=
  edges.filter fun e => decide (e.2 = i)

/-- Embedding of the attention logit of `_get_attention` (lines 207-210)
for head `hd`: the einsum contracts the concatenation of destination
features `x_i = x[e.2]` and source features `x_j = x[e.1]` with the two
halves of the attention vector, then applies the leaky relu. -/
noncomputable def attnLogit (F : ℕ) (attL attR : ℕ → Fin F → ℝ)
    (x : ℕ → ℕ → Fin F → ℝ) (slope : ℝ) (hd : ℕ) (e : ℕ × ℕ) : ℝ :=
  leakyRelu slope
    ((∑ f : Fin F, x e.2 hd f * attL hd f) +
      (∑ f : Fin F, x e.1 hd f * attR hd f))

/-- Per-group maximum subtracted by the segmented softmax for numerical
stability (the value of the softmax is invariant under this shift). -/
noncomputable def maxList : List ℝ → ℝ
  | [] => 0
  | a :: l => l.foldl max a

/-- Embedding of `torch_geometric.utils.softmax(src, edge_index_i,
size_i)` (line 211): exponentiate each logit minus its destination
group's maximum and divide by the group's sum of exponentials. -/
noncomputable def segSoftmax (edges : List (ℕ × ℕ)) (logit : ℕ × ℕ → ℝ)
    (e : ℕ × ℕ) : ℝ :=
  Real.exp (logit e - maxList ((groupOf edges e.2).map logit)) /
    (((groupOf edges e.2).map logit).map fun v =>
      Real.exp (v - maxList ((groupOf edges e.2).map logit))).sum

/-- Embedding of `ExplicitGAT._get_attention` (lines 195-213) for one
head. -/
noncomputable def getAttention (F : ℕ) (attL attR : ℕ → Fin F → ℝ)
    (x : ℕ → ℕ → Fin F → ℝ) (slope : ℝ) (edges : List (ℕ × ℕ)) (hd : ℕ)
    (e : ℕ × ℕ) : ℝ :=
  segSoftmax edges (attnLogit F attL attR x slope hd) e

theorem groupOf_dest {edges : List (ℕ × ℕ)} {i : ℕ} {e : ℕ × ℕ}
    (h : e ∈ groupOf edges i) : e.2 = i := by
  have := List.of_mem_filter h
  simpa using this

theorem mem_groupOf_self {edges : List (ℕ × ℕ)} {e : ℕ × ℕ}
    (h : e ∈ edges) : e ∈ groupOf edges e.2 :=
  List.mem_filter.mpr ⟨h, by simp⟩

theorem list_sum_map_div {α : Type} (l : List α) (f : α → ℝ) (c : ℝ) :
    (l.map fun a => f a / c).sum = (l.map f).sum / c := by
  induction l with
  | nil => simp
  | cons a l ih => simp [ih, add_div]

theorem segSoftmax_sum_pos (edges : List (ℕ × ℕ)) (logit : ℕ × ℕ → ℝ)
    (i : ℕ) (hne : groupOf edges i ≠ []) :
    0 < (((groupOf edges i).map logit).map fun v =>
      Real.exp (v - maxList ((groupOf edges i).map logit))).sum := by
  apply List.sum_pos
  · intro x hx
    obtain ⟨v, _, hv⟩ := List.mem_map.mp hx
    rw [← hv]
    exact Real.exp_pos _
  · intro hcon
    apply hne
    have hlen := congrArg List.length hcon
    simp only [List.length_map, List.length_nil] at hlen
    exact List.length_eq_zero.mp hlen

theorem segSoftmax_sum (edges : List (ℕ × ℕ)) (logit : ℕ × ℕ → ℝ) (i : ℕ)
    (hne : groupOf edges i ≠ []) :
    ((groupOf edges i).map fun e => segSoftmax edges logit e).sum = 1 := by
  have hSpos := segSoftmax_sum_pos edges logit i hne
  have hterm : ∀ e ∈ groupOf edges i,
      segSoftmax edges logit e =
        Real.exp (logit e - maxList ((groupOf edges i).map logit)) /
          (((groupOf edges i).map logit).map fun v =>
            Real.exp (v - maxList ((groupOf edges i).map logit))).sum := by
    intro e he
    have h2 : e.2 = i := groupOf_dest he
    unfold segSoftmax
    rw [h2]
  rw [List.map_congr_left hterm, list_sum_map_div]
  rw [div_eq_one_iff_eq (ne_of_gt hSpos)]
  rw [List.map_map]
  rfl

theorem segSoftmax_mem_Ioc (edges : List (ℕ × ℕ)) (logit : ℕ × ℕ → ℝ)
    (e : ℕ × ℕ) (he : e ∈ edges) :
    segSoftmax edges logit e ∈ Set.Ioc (0 : ℝ) 1 := by
  have hg := mem_groupOf_self he
  have hne : groupOf edges e.2 ≠ [] := by
    intro h
    rw [h] at hg
    exact List.not_mem_nil _ hg
  have hSpos := segSoftmax_sum_pos edges logit e.2 hne
  constructor
  · exact div_pos (Real.exp_pos _) hSpos
  · unfold segSoftmax
    rw [div_le_one hSpos]
    apply List.single_le_sum
    · intro x hx
      obtain ⟨v, _, hv⟩ := List.mem_map.mp hx
      rw [← hv]
      exact le_of_lt (Real.exp_pos _)
    · exact List.mem_map_of_mem _ (List.mem_map_of_mem logit hg)

/-- Claim C2 (corrected): for every graph, parameters and head, the
normalized attention weights of `_get_attention` sum to 1 within each
nonempty destination group, and every individual weight lies in the
half-open interval (0, 1] — the right endpoint is attained exactly on
destinations with a single incoming edge, so the open interval (0,1)
claimed by the spec is wrong. -/
theorem C2_corrected (F : ℕ) (attL attR : ℕ → Fin F → ℝ)
    (x : ℕ → ℕ → Fin F → ℝ) (slope : ℝ) (edges : List (ℕ × ℕ))
    (hd i : ℕ) :
    (groupOf edges i ≠ [] →
      ((groupOf edges i).map fun e =>
        getAttention F attL attR x slope edges hd e).sum = 1) ∧
    ∀ e ∈ edges,
      getAttention F attL attR x slope edges hd e ∈ Set.Ioc (0 : ℝ) 1 :=
  ⟨fun hne => segSoftmax_sum edges _ i hne,
    fun e he => segSoftmax_mem_Ioc edges _ e he⟩

/-- Witness for C2 (corrected): a 2-node graph with both edges pointing
at node 0. -/
theorem C2_witness :
    ((groupOf [(0, 0), (1, 0)] 0).map fun e =>
      getAttention 1 (fun _ _ => 0) (fun _ _ => 0) (fun _ _ _ => 0)
        (2 / 10) [(0, 0), (1, 0)] 0 e).sum = 1 ∧
    getAttention 1 (fun _ _ => 0) (fun _ _ => 0) (fun _ _ _ => 0) (2 / 10)
        [(0, 0), (1, 0)] 0 (0, 0) ∈ Set.Ioc (0 : ℝ) 1 :=
  ⟨(C2_corrected 1 (fun _ _ => 0) (fun _ _ => 0) (fun _ _ _ => 0) (2 / 10)
      [(0, 0), (1, 0)] 0 0).1 (by decide),
    (C2_corrected 1 (fun _ _ => 0) (fun _ _ => 0) (fun _ _ _ => 0) (2 / 10)
      [(0, 0), (1, 0)] 0 0).2 (0, 0) (by decide)⟩

/-- Claim C2 as stated is false: on a single-node graph whose only edge
is the self-loop, the normalized weight of that edge is exactly 1, which
is not in the open interval (0, 1). -/
theorem C2_counterexample :
    getAttention 1 (fun _ _ => 0) (fun _ _ => 0) (fun _ _ _ => 0) (2 / 10)
        [(0, 0)] 0 (0, 0) = 1 ∧
      getAttention 1 (fun _ _ => 0) (fun _ _ => 0) (fun _ _ _ => 0) (2 / 10)
          [(0, 0)] 0 (0, 0) ∉ Set.Ioo (0 : ℝ) 1 := by
  have h1 : getAttention 1 (fun _ _ => 0) (fun _ _ => 0) (fun _ _ _ => 0)
      (2 / 10) [(0, 0)] 0 (0, 0) = 1 := by
    unfold getAttention segSoftmax attnLogit leakyRelu groupOf maxList
    norm_num
  refine ⟨h1, ?_⟩
  rw [h1]
  simp

/-- Embedding of `ExplicitGAT._get_attention_with_negatives` (lines
215-238) for one head: concatenate positive and negative edges
(line 223); if the negative list is empty return `torch.zeros((2, 0,
heads))`, an empty tensor with no rows (lines 225-226); otherwise score
the combined list with `_get_attention`. -/
noncomputable def getAttentionWithNegatives (F : ℕ)
    (attL attR : ℕ → Fin F → ℝ) (x : ℕ → ℕ → Fin F → ℝ) (slope : ℝ)
    (edge_index neg_edge_index : List (ℕ × ℕ)) (hd : ℕ) : List ℝ :=
  if neg_edge_index.length ≤ 0 then []
  else
    (edge_index ++ neg_edge_index).map
      (getAttention F attL attR x slope (edge_index ++ neg_edge_index) hd)

/-- Claim C9 (code_bug): when the negative edge list is empty the guard
(lines 225-226) returns `torch.zeros((2, 0, self.heads))` — an empty
tensor with no rows — so the calibrated output for the positive edges is
*not* produced, contradicting the function's own shape contract
(`[E + neg_E, heads]`, docstring line 220 and call-site comment line
148).  With one positive edge and no negatives the result has 0 rows
instead of 1; with one negative edge it has the documented 2 rows. -/
theorem C9_code_bug :
    getAttentionWithNegatives 1 (fun _ _ => 0) (fun _ _ => 0)
        (fun _ _ _ => 0) (2 / 10) [(0, 0)] [] 0 = [] ∧
      (getAttentionWithNegatives 1 (fun _ _ => 0) (fun _ _ => 0)
        (fun _ _ _ => 0) (2 / 10) [(0, 0)] [(0, 1)] 0).length = 2 := by
  constructor
  · rfl
  · simp [getAttentionWithNegatives]

end SuperGAT
